import Mathlib

/-!
Verification of the numerical core of a scattered-data gridding program
(surface splines in tension).  The development is a shallow embedding of
the relevant C routines of src/surface.c into Lean: machine doubles are
modelled as exact rationals (or as scalars of a linear ordered ring where
noted), grids as functions from (row, col) to the scalars, and the stateful
routines as explicit state-passing functions.  Definitions mirror the C
source; theorems settle the specification claims about it.
-/

namespace Surface

/-! ## Briggs off-node coupling coefficients (surface_solve_Briggs_coefficients) -/

/-- The six Briggs values stored per constrained bin, b[0]..b[5]. -/
structure BriggsEntry where
  b0 : ℚ
  b1 : ℚ
  b2 : ℚ
  b3 : ℚ
  b4 : ℚ
  b5 : ℚ
deriving DecidableEq, Repr

/-- Embedding of surface_solve_Briggs_coefficients (surface.c lines 544-573).
    Arguments a0c1, a0c2 are the cached constants C->a0_const_1, C->a0_const_2;
    (xx, yy) are the fractional offsets after reflection into the first
    quadrant and z is the (detrended, RMS-normalized) datum value. -/
def surface_solve_Briggs_coefficients (a0c1 a0c2 xx yy z : ℚ) : BriggsEntry :=
  let xx_plus_yy := xx + yy
  let xx_plus_yy_plus_one := 1 + xx_plus_yy
  let inv_xx_plus_yy_plus_one := 1 / xx_plus_yy_plus_one
  let xx2 := xx * xx
  let yy2 := yy * yy
  let inv_delta := inv_xx_plus_yy_plus_one / xx_plus_yy
  let b0 := (xx2 + 2 * xx * yy + xx - yy2 - yy) * inv_delta
  let b1 := 2 * (yy - xx + 1) * inv_xx_plus_yy_plus_one
  let b2 := 2 * (xx - yy + 1) * inv_xx_plus_yy_plus_one
  let b3 := (-xx2 + 2 * xx * yy - xx + yy2 + yy) * inv_delta
  let b_4 := 4 * inv_delta
  let sum5 := b0 + b1 + b2 + b3 + b_4
  { b0 := b0, b1 := b1, b2 := b2, b3 := b3,
    b4 := b_4 * z,
    b5 := 1 / (a0c1 + a0c2 * sum5) }

/-- C1: for fractional offsets (xx, yy) in the first quadrant with
    xx + yy > 0, the stored Briggs coefficients are exactly the closed forms
    of the specification: with delta = (xx + yy)(1 + xx + yy),
    b0 = (xx^2 + 2 xx yy + xx - yy^2 - yy)/delta, b1 = 2(yy - xx + 1)/(1 + xx + yy),
    b2 = 2(xx - yy + 1)/(1 + xx + yy), b3 = (-xx^2 + 2 xx yy - xx + yy^2 + yy)/delta,
    b4 = (4/delta) * z (datum value pre-multiplied), and
    b5 = 1/(a0_const_1 + a0_const_2 * (b0 + b1 + b2 + b3 + 4/delta)). -/
theorem surface_solve_Briggs_coefficients_closed_forms
    (a0c1 a0c2 xx yy z : ℚ) (hx : 0 ≤ xx) (hy : 0 ≤ yy) (hs : 0 < xx + yy) :
    (surface_solve_Briggs_coefficients a0c1 a0c2 xx yy z).b0 =
        (xx ^ 2 + 2 * xx * yy + xx - yy ^ 2 - yy) / ((xx + yy) * (1 + xx + yy)) ∧
    (surface_solve_Briggs_coefficients a0c1 a0c2 xx yy z).b1 =
        2 * (yy - xx + 1) / (1 + xx + yy) ∧
    (surface_solve_Briggs_coefficients a0c1 a0c2 xx yy z).b2 =
        2 * (xx - yy + 1) / (1 + xx + yy) ∧
    (surface_solve_Briggs_coefficients a0c1 a0c2 xx yy z).b3 =
        (-(xx ^ 2) + 2 * xx * yy - xx + yy ^ 2 + yy) / ((xx + yy) * (1 + xx + yy)) ∧
    (surface_solve_Briggs_coefficients a0c1 a0c2 xx yy z).b4 =
        4 / ((xx + yy) * (1 + xx + yy)) * z ∧
    (surface_solve_Briggs_coefficients a0c1 a0c2 xx yy z).b5 =
        1 / (a0c1 + a0c2 *
          ((xx ^ 2 + 2 * xx * yy + xx - yy ^ 2 - yy) / ((xx + yy) * (1 + xx + yy)) +
           2 * (yy - xx + 1) / (1 + xx + yy) +
           2 * (xx - yy + 1) / (1 + xx + yy) +
           (-(xx ^ 2) + 2 * xx * yy - xx + yy ^ 2 + yy) / ((xx + yy) * (1 + xx + yy)) +
           4 / ((xx + yy) * (1 + xx + yy)))) := by
  have hxy : xx + yy ≠ 0 := ne_of_gt hs
  have hxy1 : 1 + xx + yy ≠ 0 := by positivity
  have e0 : (xx * xx + 2 * xx * yy + xx - yy * yy - yy) * (1 / (1 + (xx + yy)) / (xx + yy)) =
      (xx ^ 2 + 2 * xx * yy + xx - yy ^ 2 - yy) / ((xx + yy) * (1 + xx + yy)) := by
    rw [← add_assoc]; field_simp; ring
  have e1 : 2 * (yy - xx + 1) * (1 / (1 + (xx + yy))) = 2 * (yy - xx + 1) / (1 + xx + yy) := by
    rw [← add_assoc]; field_simp
  have e2 : 2 * (xx - yy + 1) * (1 / (1 + (xx + yy))) = 2 * (xx - yy + 1) / (1 + xx + yy) := by
    rw [← add_assoc]; field_simp
  have e3 : (-(xx * xx) + 2 * xx * yy - xx + yy * yy + yy) * (1 / (1 + (xx + yy)) / (xx + yy)) =
      (-(xx ^ 2) + 2 * xx * yy - xx + yy ^ 2 + yy) / ((xx + yy) * (1 + xx + yy)) := by
    rw [← add_assoc]; field_simp; ring
  have e4 : 4 * (1 / (1 + (xx + yy)) / (xx + yy)) = 4 / ((xx + yy) * (1 + xx + yy)) := by
    rw [← add_assoc]; field_simp; ring
  refine ⟨?_, ?_, ?_, ?_, ?_, ?_⟩ <;>
    simp only [surface_solve_Briggs_coefficients]
  · exact e0
  · exact e1
  · exact e2
  · exact e3
  · rw [e4]
  · rw [e0, e1, e2, e3, e4]

/-- Witness for C1 at the concrete offsets xx = 1, yy = 0 with z = 2 and
    a0_const_1 = a0_const_2 = 1. -/
theorem surface_solve_Briggs_coefficients_closed_forms_witness :
    (0:ℚ) ≤ 1 ∧ (0:ℚ) ≤ 0 ∧ (0:ℚ) < 1 + 0 ∧
    (surface_solve_Briggs_coefficients 1 1 1 0 2).b1 = 2 * (0 - 1 + 1) / (1 + 1 + 0) :=
  ⟨by norm_num, by norm_num, by norm_num,
    (surface_solve_Briggs_coefficients_closed_forms 1 1 1 0 2 (by norm_num) (by norm_num)
      (by norm_num)).2.1⟩

/-! ## Quadrant reflection in surface_find_nearest_constraint -/

/-- SURFACE_CLOSENESS_FACTOR = 0.05: a datum within 5 percent of the grid
    spacing of the node in both axes makes the node an exact constraint. -/
def SURFACE_CLOSENESS_FACTOR : ℚ := 1/20

/-- Quadrant code assigned by surface_find_nearest_constraint
    (surface.c lines 632-651) for a nearby datum at offsets (dx, dy). -/
def surface_quadrant (dx dy : ℚ) : ℕ :=
  if 0 ≤ dy then (if 0 ≤ dx then 1 else 2)
  else (if 0 ≤ dx then 4 else 3)

/-- First-quadrant reflected x-offset xx fed to the Briggs solver
    (surface.c lines 632-651). -/
def surface_reflect_xx (dx dy : ℚ) : ℚ :=
  if 0 ≤ dy then (if 0 ≤ dx then dx else dy)
  else (if 0 ≤ dx then -dy else -dx)

/-- First-quadrant reflected y-offset yy fed to the Briggs solver
    (surface.c lines 632-651). -/
def surface_reflect_yy (dx dy : ℚ) : ℚ :=
  if 0 ≤ dy then (if 0 ≤ dx then dy else -dx)
  else (if 0 ≤ dx then dx else -dy)

/-- C10: whenever the exact-constraint test of surface_find_nearest_constraint
    fails (that is, not both offsets are below 0.05 in magnitude, equivalently
    max(|dx|,|dy|) ≥ 0.05), the reflected offsets satisfy xx ≥ 0, yy ≥ 0 and
    xx + yy ≥ 0.05 > 0, so the divisors xx + yy and 1 + xx + yy used inside
    surface_solve_Briggs_coefficients are strictly positive. -/
theorem surface_reflect_offsets_safe (dx dy : ℚ)
    (h : ¬ (|dx| < SURFACE_CLOSENESS_FACTOR ∧ |dy| < SURFACE_CLOSENESS_FACTOR)) :
    SURFACE_CLOSENESS_FACTOR ≤ max |dx| |dy| ∧
    0 ≤ surface_reflect_xx dx dy ∧ 0 ≤ surface_reflect_yy dx dy ∧
    SURFACE_CLOSENESS_FACTOR ≤ surface_reflect_xx dx dy + surface_reflect_yy dx dy ∧
    0 < surface_reflect_xx dx dy + surface_reflect_yy dx dy ∧
    0 < 1 + surface_reflect_xx dx dy + surface_reflect_yy dx dy := by
  have hmax : SURFACE_CLOSENESS_FACTOR ≤ max |dx| |dy| := by
    rcases not_and_or.mp h with h1 | h1
    · exact le_max_of_le_left (not_lt.mp h1)
    · exact le_max_of_le_right (not_lt.mp h1)
  have hsum : max |dx| |dy| ≤ |dx| + |dy| := by
    have := abs_nonneg dx
    have := abs_nonneg dy
    exact max_le (by linarith) (by linarith)
  have hrefl : surface_reflect_xx dx dy + surface_reflect_yy dx dy = |dx| + |dy| := by
    unfold surface_reflect_xx surface_reflect_yy
    rcases le_or_lt 0 dy with hy | hy <;> rcases le_or_lt 0 dx with hx | hx <;>
      simp [hx, hy, not_le.mpr, abs_of_nonneg, abs_of_neg] <;> ring
  have hxx : 0 ≤ surface_reflect_xx dx dy := by
    unfold surface_reflect_xx
    rcases le_or_lt 0 dy with hy | hy <;> rcases le_or_lt 0 dx with hx | hx <;>
      simp [hx, hy, not_le.mpr] <;> linarith
  have hyy : 0 ≤ surface_reflect_yy dx dy := by
    unfold surface_reflect_yy
    rcases le_or_lt 0 dy with hy | hy <;> rcases le_or_lt 0 dx with hx | hx <;>
      simp [hx, hy, not_le.mpr] <;> linarith
  have hpos : SURFACE_CLOSENESS_FACTOR ≤ surface_reflect_xx dx dy + surface_reflect_yy dx dy := by
    rw [hrefl]; exact le_trans hmax hsum
  have h0 : (0:ℚ) < SURFACE_CLOSENESS_FACTOR := by norm_num [SURFACE_CLOSENESS_FACTOR]
  exact ⟨hmax, hxx, hyy, hpos, lt_of_lt_of_le h0 hpos, by linarith⟩

/-- Witness for C10 at the concrete offsets dx = 1/10, dy = 0. -/
theorem surface_reflect_offsets_safe_witness :
    ¬ (|(1/10 : ℚ)| < SURFACE_CLOSENESS_FACTOR ∧ |(0:ℚ)| < SURFACE_CLOSENESS_FACTOR) ∧
    (SURFACE_CLOSENESS_FACTOR ≤ max |(1/10 : ℚ)| |(0:ℚ)| ∧
     0 ≤ surface_reflect_xx (1/10) 0 ∧ 0 ≤ surface_reflect_yy (1/10) 0 ∧
     SURFACE_CLOSENESS_FACTOR ≤ surface_reflect_xx (1/10) 0 + surface_reflect_yy (1/10) 0 ∧
     0 < surface_reflect_xx (1/10) 0 + surface_reflect_yy (1/10) 0 ∧
     0 < 1 + surface_reflect_xx (1/10) 0 + surface_reflect_yy (1/10) 0) :=
  ⟨by
    rw [show |(1/10 : ℚ)| = 1/10 from abs_of_nonneg (by norm_num)]
    norm_num [SURFACE_CLOSENESS_FACTOR],
    surface_reflect_offsets_safe (1/10) 0 (by
      rw [show |(1/10 : ℚ)| = 1/10 from abs_of_nonneg (by norm_num)]
      norm_num [SURFACE_CLOSENESS_FACTOR])⟩

/-! ## Boundary-condition constants and the second-order south/north BC
    (surface_set_coefficients lines 296-326, surface_set_BCs lines 1053-1060) -/

/-- The cached constant C->eps_m2 = 1/alpha^2 set in surface_set_coefficients. -/
def surface_eps_m2 (alpha : ℚ) : ℚ := 1 / (alpha * alpha)

/-- The cached constant C->two_plus_em2 = 2 + 2*eps_m2 set in
    surface_set_coefficients (line 303). -/
def surface_two_plus_em2 (alpha : ℚ) : ℚ := 2 + 2 * surface_eps_m2 alpha

/-- Value written to the second south ghost node u[S2] by surface_set_BCs
    (lines 1055-1056), as a function of the neighbour values it reads. -/
def surface_set_BCs_south_S2 (alpha uN2 uNW uNE uSW uSE uS1 uN1 : ℚ) : ℚ :=
  uN2 + surface_eps_m2 alpha * (uNW + uNE - uSW - uSE) +
    surface_two_plus_em2 alpha * (uS1 - uN1)

/-- Value written to the second north ghost node u[N2] by surface_set_BCs
    (lines 1058-1059), as a function of the neighbour values it reads. -/
def surface_set_BCs_north_N2 (alpha uS2 uSW uSE uNW uNE uN1 uS1 : ℚ) : ℚ :=
  uS2 + surface_eps_m2 alpha * (uSW + uSE - uNW - uNE) +
    surface_two_plus_em2 alpha * (uN1 - uS1)

/-- Counterexample to C6: with alpha = 1 (so eps_m2 = 1), all neighbour values
    zero except u[S1] = 1, the code writes u[S2] = 4 while the claimed formula
    u[N2] + eps_m2*(u[NW]+u[NE]-u[SW]-u[SE]) + (2+eps_m2)*(u[S1]-u[N1])
    yields 3. -/
theorem surface_set_BCs_south_S2_counterexample :
    surface_set_BCs_south_S2 1 0 0 0 0 0 1 0 ≠
      0 + surface_eps_m2 1 * (0 + 0 - 0 - 0) + (2 + surface_eps_m2 1) * (1 - 0) := by
  norm_num [surface_set_BCs_south_S2, surface_eps_m2, surface_two_plus_em2]

/-- C6 (amended): after surface_set_BCs on a non-periodic grid the second
    south ghost satisfies u[S2] = u[N2] + eps_m2*(u[NW]+u[NE]-u[SW]-u[SE])
    + (2 + 2*eps_m2)*(u[S1]-u[N1]) with eps_m2 = 1/alpha^2 (the edge-difference
    coefficient is 2 + 2*eps_m2, not 2 + eps_m2), and the analogous relation
    holds on the north edge. -/
theorem surface_set_BCs_second_order_relation
    (alpha uN2 uNW uNE uSW uSE uS1 uN1 : ℚ) :
    surface_set_BCs_south_S2 alpha uN2 uNW uNE uSW uSE uS1 uN1 =
      uN2 + 1 / alpha ^ 2 * (uNW + uNE - uSW - uSE) +
        (2 + 2 * (1 / alpha ^ 2)) * (uS1 - uN1) ∧
    surface_set_BCs_north_N2 alpha uN2 uNW uNE uSW uSE uS1 uN1 =
      uN2 + 1 / alpha ^ 2 * (uNW + uNE - uSW - uSE) +
        (2 + 2 * (1 / alpha ^ 2)) * (uS1 - uN1) := by
  unfold surface_set_BCs_south_S2 surface_set_BCs_north_N2
    surface_two_plus_em2 surface_eps_m2
  constructor <;> (rw [pow_two]; try ring)

/-! ## Breakline densification count (surface_interpolate_add_breakline) -/

/-- Number of samples generated for one breakline edge before its terminal
    vertex, from surface.c line 1562:
    n_int = lrint (hypot (dx, dy) * MAX (r_inc_x, r_inc_y)) + 1.
    The argument h stands for the nonnegative quantity
    hypot(dx, dy) * max(1/x_inc, 1/y_inc); the square root inside hypot is
    not rational-computable, so the embedding takes the rounded quantity's
    argument as input (round models lrint). -/
def surface_breakline_n_int (h : ℚ) : ℤ := round h + 1

/-- Samples lying on one breakline edge, endpoints included: the n_int
    samples produced by the inner loop at offsets n = 0 .. n_int - 1 plus
    the terminal vertex (emitted as the first sample of the next edge, or as
    the final point of the segment at line 1581). -/
def surface_breakline_edge_samples (h : ℚ) : ℤ := surface_breakline_n_int h + 1

/-- C8: every breakline edge carries at least
    ceil(hypot(dx, dy) * max(1/x_inc, 1/y_inc)) + 1 samples after
    densification. -/
theorem surface_breakline_edge_samples_ge (h : ℚ) :
    ⌈h⌉ + 1 ≤ surface_breakline_edge_samples h := by
  unfold surface_breakline_edge_samples surface_breakline_n_int
  have h1 : ⌈h⌉ ≤ ⌊h⌋ + 1 := Int.ceil_le_floor_add_one h
  have h2 : ⌊h⌋ ≤ round h := by
    rw [round_eq]
    exact Int.floor_mono (by linarith)
  omega

/-! ## Curvature report (surface_check_errors, lines 1223-1233) -/

/-- Curvature summand computed by the code at one node (surface.c line 1227):
    c = u[E1] + u[W1] + u[N1] + u[S1] - 4.0 * u[node + d_node[E1]].
    Note the last factor reads the east neighbour, not the centre node.
    The grid is modelled as a total function on ℤ x ℤ so that the halo
    (ghost) reads at the domain edge are well-defined. -/
def surface_curvature_term (u : ℤ → ℤ → ℚ) (row col : ℤ) : ℚ :=
  u row (col + 1) + u row (col - 1) + u (row - 1) col + u (row + 1) col -
    4 * u row (col + 1)

/-- Total curvature as summed by the code over all interior nodes. -/
def surface_curvature (n_rows n_cols : ℕ) (u : ℤ → ℤ → ℚ) : ℚ :=
  ∑ row ∈ Finset.range n_rows, ∑ col ∈ Finset.range n_cols,
    surface_curvature_term u row col ^ 2

/-- Modelled from the spec: the curvature summand the specification states,
    (u[E1] + u[W1] + u[N1] + u[S1] - 4*u[center])^2 with the centre node value
    in the last factor. -/
def surface_curvature_term_spec (u : ℤ → ℤ → ℚ) (row col : ℤ) : ℚ :=
  u row (col + 1) + u row (col - 1) + u (row - 1) col + u (row + 1) col -
    4 * u row col

/-- Modelled from the spec: total curvature with the centred summand. -/
def surface_curvature_spec (n_rows n_cols : ℕ) (u : ℤ → ℤ → ℚ) : ℚ :=
  ∑ row ∈ Finset.range n_rows, ∑ col ∈ Finset.range n_cols,
    surface_curvature_term_spec u row col ^ 2

/-- Example grid exposing the divergence: the single interior node (0,0) has
    east neighbour 1 and all other values 0. -/
def curvatureExampleGrid : ℤ → ℤ → ℚ :=
  fun row col => if row = 0 ∧ col = 1 then 1 else 0

/-- C7: on the example grid the code reports curvature
    (1 - 4*1)^2 = 9, while the specified quantity is (1 - 4*0)^2 = 1.
    The code subtracts 4 times the east neighbour instead of 4 times the
    centre node, contradicting the specification and the code's own
    stated intent of computing the total curvature. -/
theorem surface_curvature_code_bug :
    surface_curvature 1 1 curvatureExampleGrid = 9 ∧
    surface_curvature_spec 1 1 curvatureExampleGrid = 1 := by
  constructor <;>
    norm_num [surface_curvature, surface_curvature_spec, surface_curvature_term,
      surface_curvature_term_spec, curvatureExampleGrid]

/-! ## The SOR iteration loop (surface_iterate, lines 1078-1159).
    The loop body's numerics are abstracted by the sequence
    max_u_change n = the maximal absolute node change of the n-th sweep;
    the control flow (convergence test and iteration cap) is embedded
    exactly: current_limit = converge_limit / current_stride and
    current_max_iterations = max_iterations * current_stride. -/

/-- One do-while round of surface_iterate: perform sweep number count+1, then
    stop if max_z_change = max_u_change * z_rms is at most the limit or the
    sweep count reached maxIter.  The structural fuel argument makes the
    function total; the fuel-exhausted branch still returns after the sweep
    it performed and is unreachable when fuel = maxIter - count > 0. -/
def surface_iterate_go (max_u_change : ℕ → ℚ) (z_rms limit : ℚ) (maxIter : ℕ) :
    ℕ → ℕ → ℕ
  | count, 0 => count + 1
  | count, fuel + 1 =>
    if max_u_change (count + 1) * z_rms ≤ limit ∨ maxIter ≤ count + 1 then count + 1
    else surface_iterate_go max_u_change z_rms limit maxIter (count + 1) fuel

/-- Number of sweeps performed by a call to surface_iterate with stride s,
    iteration cap N (so current_max_iterations = N * s) and convergence limit
    L (so current_limit = L / s). -/
def surface_iterate (max_u_change : ℕ → ℚ) (z_rms L : ℚ) (N s : ℕ) : ℕ :=
  surface_iterate_go max_u_change z_rms (L / (s : ℚ)) (N * s) 0 (N * s)

/-- Unfolding equation for one round of the loop. -/
theorem surface_iterate_go_succ (uch : ℕ → ℚ) (z_rms limit : ℚ)
    (maxIter count f : ℕ) :
    surface_iterate_go uch z_rms limit maxIter count (f + 1) =
      if uch (count + 1) * z_rms ≤ limit ∨ maxIter ≤ count + 1 then count + 1
      else surface_iterate_go uch z_rms limit maxIter (count + 1) f := rfl

/-- Invariant of the iteration loop: starting after count sweeps with
    fuel = maxIter - count > 0 remaining, the loop performs at least one more
    sweep, stops no later than sweep maxIter, stops exactly when the sweep
    just completed converged or the cap is reached, and every strictly earlier
    sweep had not converged and was below the cap. -/
theorem surface_iterate_go_spec (uch : ℕ → ℚ) (z_rms limit : ℚ) :
    ∀ fuel count, 0 < fuel →
      count < surface_iterate_go uch z_rms limit (count + fuel) count fuel ∧
      surface_iterate_go uch z_rms limit (count + fuel) count fuel ≤ count + fuel ∧
      (uch (surface_iterate_go uch z_rms limit (count + fuel) count fuel) * z_rms ≤ limit ∨
        surface_iterate_go uch z_rms limit (count + fuel) count fuel = count + fuel) ∧
      (∀ m, count < m → m < surface_iterate_go uch z_rms limit (count + fuel) count fuel →
        ¬ (uch m * z_rms ≤ limit) ∧ m < count + fuel) := by
  intro fuel
  induction fuel with
  | zero => intro count h; exact absurd h (by omega)
  | succ f ih =>
    intro count _
    by_cases hc : uch (count + 1) * z_rms ≤ limit ∨ count + (f + 1) ≤ count + 1
    · have hgo : surface_iterate_go uch z_rms limit (count + (f + 1)) count (f + 1) =
          count + 1 := by
        rw [surface_iterate_go_succ, if_pos hc]
      refine ⟨by omega, by omega, ?_, ?_⟩
      · rw [hgo]
        rcases hc with hc | hc
        · exact Or.inl hc
        · exact Or.inr (by omega)
      · intro m hm hm'
        rw [hgo] at hm'
        omega
    · have hf : 0 < f := by
        rcases not_or.mp hc with ⟨-, h2⟩
        omega
      have hmx : count + (f + 1) = (count + 1) + f := by omega
      have hgo : surface_iterate_go uch z_rms limit (count + (f + 1)) count (f + 1) =
          surface_iterate_go uch z_rms limit ((count + 1) + f) (count + 1) f := by
        rw [surface_iterate_go_succ, if_neg hc, hmx]
      have ihc := ih (count + 1) hf
      rcases not_or.mp hc with ⟨h1, -⟩
      refine ⟨?_, ?_, ?_, ?_⟩
      · rw [hgo]; omega
      · rw [hgo]; omega
      · rw [hgo]
        rcases ihc.2.2.1 with h | h
        · exact Or.inl h
        · exact Or.inr (by omega)
      · intro m hm hm'
        rw [hgo] at hm'
        rcases Nat.lt_or_ge (count + 1) m with hm2 | hm2
        · have := ihc.2.2.2 m hm2 hm'
          exact ⟨this.1, by omega⟩
        · have hmeq : m = count + 1 := by omega
          subst hmeq
          exact ⟨h1, by omega⟩

/-- C2: for stride s ≥ 1 and iteration cap N ≥ 1, surface_iterate terminates
    after at least 1 and at most N*s sweeps; it returns after the first sweep
    whose max |du| * z_rms is at most L/s (unless the cap N*s was reached
    first), and every sweep before the final one had max |du| * z_rms
    strictly above L/s with fewer than N*s sweeps done. -/
theorem surface_iterate_sweep_count (uch : ℕ → ℚ) (z_rms L : ℚ) (N s : ℕ)
    (hN : 1 ≤ N) (hs : 1 ≤ s) :
    1 ≤ surface_iterate uch z_rms L N s ∧
    surface_iterate uch z_rms L N s ≤ N * s ∧
    (uch (surface_iterate uch z_rms L N s) * z_rms ≤ L / (s : ℚ) ∨
      surface_iterate uch z_rms L N s = N * s) ∧
    ∀ m, 1 ≤ m → m < surface_iterate uch z_rms L N s →
      L / (s : ℚ) < uch m * z_rms ∧ m < N * s := by
  have hfuel : 0 < N * s := Nat.mul_pos hN hs
  have h := surface_iterate_go_spec uch z_rms (L / (s : ℚ)) (N * s) 0 hfuel
  simp only [Nat.zero_add] at h
  refine ⟨h.1, h.2.1, h.2.2.1, ?_⟩
  intro m hm hm'
  have := h.2.2.2 m hm hm'
  exact ⟨not_le.mp this.1, this.2⟩

/-- Witness for C2: stride 2, cap 3, z_rms = 1, limit 1/2, with sweep changes
    1, 0, 1, 1, ... (the second sweep converges). -/
theorem surface_iterate_sweep_count_witness :
    1 ≤ (3:ℕ) ∧ 1 ≤ (2:ℕ) ∧
    (1 ≤ surface_iterate (fun n => if n = 2 then 0 else 1) 1 (1/2) 3 2 ∧
     surface_iterate (fun n => if n = 2 then 0 else 1) 1 (1/2) 3 2 ≤ 3 * 2 ∧
     ((fun n : ℕ => if n = 2 then (0:ℚ) else 1)
        (surface_iterate (fun n => if n = 2 then 0 else 1) 1 (1/2) 3 2) * 1 ≤ 1/2 / ((2:ℕ) : ℚ) ∨
      surface_iterate (fun n => if n = 2 then 0 else 1) 1 (1/2) 3 2 = 3 * 2) ∧
     ∀ m, 1 ≤ m → m < surface_iterate (fun n => if n = 2 then 0 else 1) 1 (1/2) 3 2 →
       1/2 / ((2:ℕ) : ℚ) < (fun n : ℕ => if n = 2 then (0:ℚ) else 1) m * 1 ∧ m < 3 * 2) :=
  ⟨by decide, by decide,
    surface_iterate_sweep_count (fun n => if n = 2 then 0 else 1) 1 (1/2) 3 2
      (by decide) (by decide)⟩

/-! ## Planar trend evaluation and restoration -/

/-- Trend of the least-squares plane from the origin to (xx, y_up)
    (macro evaluate_trend, surface.c line 166). -/
def evaluate_trend (plane_sx plane_sy xx y_up : ℚ) : ℚ :=
  plane_sx * xx + plane_sy * y_up

/-- Least-squares plane value at (xx, y_up) (macro evaluate_plane, line 168). -/
def evaluate_plane (plane_icept plane_sx plane_sy xx y_up : ℚ) : ℚ :=
  plane_icept + evaluate_trend plane_sx plane_sy xx y_up

/-- Embedding of surface_restore_planar_trend (lines 1281-1299): every node
    value is scaled by z_rms and the plane evaluated at (col, y_up) with
    y_up = n_rows - row - 1 is added. -/
def surface_restore_planar_trend (z_rms plane_icept plane_sx plane_sy : ℚ)
    (n_rows : ℕ) (u : ℕ → ℕ → ℚ) : ℕ → ℕ → ℚ :=
  fun row col => u row col * z_rms +
    evaluate_plane plane_icept plane_sx plane_sy (col : ℚ) ((n_rows - row - 1 : ℕ) : ℚ)

/-- Periodic east-west closure applied by surface_write_grid (lines 993-998):
    in each row the west and east edge columns are both replaced by their
    average.  Other nodes are untouched. -/
def surface_write_grid_periodic (periodic : Bool) (n_cols : ℕ) (u : ℕ → ℕ → ℚ) :
    ℕ → ℕ → ℚ :=
  fun row col =>
    if periodic = true ∧ (col = 0 ∨ col = n_cols - 1) then
      (u row 0 + u row (n_cols - 1)) / 2
    else u row col

/-- GMT_CONV8_LIMIT = 1e-8, the threshold below which the detrended data are
    treated as lying exactly on a plane. -/
def GMT_CONV8_LIMIT : ℚ := 1/100000000

/-- The data-on-a-plane early exit of GMT_surface (lines 2117-2125 together
    with surface_rescale_z_values lines 1351-1355): when the detrended
    residual rms is below 1e-8 the solver performs no SOR sweep, resets z_rms
    to 1, fills a grid of zeros, restores the plane, applies the periodic
    closure of surface_write_grid (no bound clipping is active on this path)
    and returns success.  The value none models the normal continuation into
    the multigrid solve. -/
def GMT_surface_plane_branch (z_rms : ℚ) (periodic : Bool)
    (plane_icept plane_sx plane_sy : ℚ) (n_rows n_cols : ℕ) :
    Option (ℕ → ℕ → ℚ) :=
  if z_rms < GMT_CONV8_LIMIT then
    some (surface_write_grid_periodic periodic n_cols
      (surface_restore_planar_trend 1 plane_icept plane_sx plane_sy n_rows (fun _ _ => 0)))
  else none

/-- C3: if the detrended residual rms is below 1e-8 the solver takes the
    plane branch (no SOR sweep, success) and the written grid value at every
    node equals plane_icept + plane_sx * col + plane_sy * (n_rows - 1 - row)
    exactly, z_rms being treated as 1.  The hypothesis plane_sx = 0 for
    periodic grids is established by surface_remove_planar_trend (line 1270). -/
theorem GMT_surface_plane_branch_exact (z_rms : ℚ) (periodic : Bool)
    (plane_icept plane_sx plane_sy : ℚ) (n_rows n_cols row col : ℕ)
    (hz : z_rms < GMT_CONV8_LIMIT) (hper : periodic = true → plane_sx = 0)
    (hrow : row < n_rows) (hcol : col < n_cols) :
    ∃ g, GMT_surface_plane_branch z_rms periodic plane_icept plane_sx plane_sy n_rows n_cols
        = some g ∧
      g row col = plane_icept + plane_sx * (col : ℚ) + plane_sy * ((n_rows - 1 - row : ℕ) : ℚ) := by
  have hy : (n_rows - row - 1 : ℕ) = (n_rows - 1 - row : ℕ) := by omega
  refine ⟨_, by rw [GMT_surface_plane_branch, if_pos hz], ?_⟩
  unfold surface_write_grid_periodic surface_restore_planar_trend evaluate_plane evaluate_trend
  by_cases hp : periodic = true ∧ (col = 0 ∨ col = n_cols - 1)
  · rw [if_pos hp]
    have hsx : plane_sx = 0 := hper hp.1
    have hy0 : (n_rows - 0 - 1 : ℕ) = (n_rows - 1 - row : ℕ) + row := by omega
    subst hsx
    rw [hy]
    push_cast
    ring
  · rw [if_neg hp, hy]
    ring

/-- Witness for C3 at z_rms = 0, a non-periodic 2 x 4 grid, plane
    1 + 2*col + 3*y_up, node (0, 1). -/
theorem GMT_surface_plane_branch_exact_witness :
    ∃ g, GMT_surface_plane_branch 0 false 1 2 3 2 4 = some g ∧
      g 0 1 = 1 + 2 * ((1:ℕ) : ℚ) + 3 * ((2 - 1 - 0 : ℕ) : ℚ) :=
  GMT_surface_plane_branch_exact 0 false 1 2 3 2 4 0 1
    (by norm_num [GMT_CONV8_LIMIT]) (fun h => by cases h) (by decide) (by decide)

/-! ## Bound clipping in surface_write_grid (lines 978-998) -/

/-- Bound clipping of surface_write_grid (lines 982-985) at one node: first
    the lower clip, then (on the already lower-clipped value) the upper clip.
    A bound value none models an NaN (unconstrained) bound node. -/
def surface_clip_node (set_lo set_hi : Bool) (lo hi : Option ℚ) (v0 : ℚ) : ℚ :=
  let v1 := match set_lo, lo with
    | true, some b => if v0 < b then b else v0
    | _, _ => v0
  match set_hi, hi with
  | true, some b => if b < v1 then b else v1
  | _, _ => v1

/-- The clipping loop of surface_write_grid applied to the whole grid. -/
def surface_write_grid_clip (set_lo set_hi : Bool) (lo hi : ℕ → ℕ → Option ℚ)
    (u : ℕ → ℕ → ℚ) : ℕ → ℕ → ℚ :=
  fun row col => surface_clip_node set_lo set_hi (lo row col) (hi row col) (u row col)

/-- The clipped value respects every finite bound at a node whose bounds are
    consistent (lower at most upper when both are finite). -/
theorem surface_clip_node_bounds (set_lo set_hi : Bool) (lo hi : Option ℚ) (v0 : ℚ)
    (hlh : ∀ bl bh, set_lo = true → set_hi = true → lo = some bl → hi = some bh → bl ≤ bh) :
    (set_lo = true → ∀ b, lo = some b → b ≤ surface_clip_node set_lo set_hi lo hi v0) ∧
    (set_hi = true → ∀ b, hi = some b → surface_clip_node set_lo set_hi lo hi v0 ≤ b) := by
  constructor
  · intro hslo b hb
    subst hslo
    subst hb
    cases set_hi with
    | false =>
      dsimp only [surface_clip_node]
      split_ifs <;> linarith
    | true =>
      rcases hi with _ | bh
      · dsimp only [surface_clip_node]
        split_ifs <;> linarith
      · have hbh : b ≤ bh := hlh b bh rfl rfl rfl rfl
        dsimp only [surface_clip_node]
        split_ifs <;> linarith
  · intro hshi b hb
    subst hshi
    subst hb
    cases set_lo with
    | false =>
      dsimp only [surface_clip_node]
      split_ifs <;> linarith
    | true =>
      rcases lo with _ | bl <;>
        · dsimp only [surface_clip_node]
          split_ifs <;> linarith

/-- The grid handed to the writer by surface_write_grid: the clipping loop
    runs first (lines 978-992), the periodic east-west averaging second
    (lines 993-998). -/
def surface_write_grid_final (set_lo set_hi : Bool) (lo hi : ℕ → ℕ → Option ℚ)
    (periodic : Bool) (n_cols : ℕ) (u : ℕ → ℕ → ℚ) : ℕ → ℕ → ℚ :=
  surface_write_grid_periodic periodic n_cols
    (surface_write_grid_clip set_lo set_hi lo hi u)

/-- Lower-bound grid for the counterexample: 1 at the west edge column, 0 at
    the east edge column, NaN elsewhere. -/
def boundsExampleLo : ℕ → ℕ → Option ℚ :=
  fun _ col => if col = 0 then some 1 else if col = 3 then some 0 else none

/-- Solution grid for the counterexample: 1 at the west edge column, 0
    elsewhere; it satisfies the bounds before the periodic averaging. -/
def boundsExampleU : ℕ → ℕ → ℚ :=
  fun _ col => if col = 0 then 1 else 0

/-- Counterexample to C5: on a periodic 1 x 4 grid with only a lower bound in
    effect, the clipped grid satisfies the bounds, but the subsequent periodic
    east-west averaging writes (1 + 0)/2 = 1/2 into the west edge column whose
    finite lower bound is 1, so the grid handed to the writer violates the
    bound. -/
theorem surface_write_grid_bounds_counterexample :
    ¬ (∀ row col : ℕ, row < 1 → col < 4 →
        ∀ b, boundsExampleLo row col = some b →
          b ≤ surface_write_grid_final true false boundsExampleLo (fun _ _ => none) true 4
                boundsExampleU row col) := by
  intro h
  have h0 := h 0 0 (by norm_num) (by norm_num) 1 rfl
  norm_num [surface_write_grid_final, surface_write_grid_periodic, surface_write_grid_clip,
    surface_clip_node, boundsExampleLo, boundsExampleU] at h0

/-- C5 (amended): at every node whose bounds are consistent (the lower bound
    does not exceed the upper bound where both are finite), the grid produced
    by surface_write_grid on a non-periodic grid respects the bounds: u is at
    least every finite lower bound and at most every finite upper bound.  On
    periodic grids the east-west edge averaging runs after the clipping and
    can break the bounds at the two edge columns. -/
theorem surface_write_grid_final_respects_bounds (set_lo set_hi : Bool)
    (lo hi : ℕ → ℕ → Option ℚ) (u : ℕ → ℕ → ℚ) (n_cols row col : ℕ)
    (hlh : ∀ bl bh, set_lo = true → set_hi = true →
      lo row col = some bl → hi row col = some bh → bl ≤ bh) :
    (set_lo = true → ∀ b, lo row col = some b →
      b ≤ surface_write_grid_final set_lo set_hi lo hi false n_cols u row col) ∧
    (set_hi = true → ∀ b, hi row col = some b →
      surface_write_grid_final set_lo set_hi lo hi false n_cols u row col ≤ b) := by
  have hper : surface_write_grid_final set_lo set_hi lo hi false n_cols u row col =
      surface_clip_node set_lo set_hi (lo row col) (hi row col) (u row col) := by
    simp [surface_write_grid_final, surface_write_grid_periodic, surface_write_grid_clip]
  rw [hper]
  exact surface_clip_node_bounds set_lo set_hi (lo row col) (hi row col) (u row col) hlh

/-- Witness for C5 (amended) with a lower bound of 0, no upper bound, and a
    solution value 5 at node (0, 0). -/
theorem surface_write_grid_final_respects_bounds_witness :
    ((true = true → ∀ b : ℚ, (fun _ _ : ℕ => some (0:ℚ)) 0 0 = some b →
      b ≤ surface_write_grid_final true true (fun _ _ => some 0) (fun _ _ => none)
            false 4 (fun _ _ => 5) 0 0) ∧
     (true = true → ∀ b : ℚ, (fun _ _ : ℕ => (none : Option ℚ)) 0 0 = some b →
      surface_write_grid_final true true (fun _ _ => some 0) (fun _ _ => none)
            false 4 (fun _ _ => 5) 0 0 ≤ b)) :=
  surface_write_grid_final_respects_bounds true true (fun _ _ => some 0) (fun _ _ => none)
    (fun _ _ => 5) 4 0 0 (fun bl bh _ _ _ h => nomatch h)

/-! ## Data points, bins and the comparator (surface_compare_points).
    Machine doubles are modelled as the scalars of an arbitrary linear
    ordered commutative ring, which keeps every definition executable and
    lets witnesses evaluate on integer instances. -/

/-- SURFACE_OUTSIDE = LONG_MAX, the index marking an unusable data point. -/
def SURFACE_OUTSIDE : ℕ := 2 ^ 63 - 1

/-- SURFACE_BREAKLINE = 1, the kind flag of breakline-derived constraints. -/
def SURFACE_BREAKLINE : ℕ := 1

/-- A data constraint record (struct SURFACE_DATA). -/
structure SurfPoint (α : Type) where
  x : α
  y : α
  z : α
  kind : ℕ
  index : ℕ
deriving DecidableEq, Repr

/-- Comparator metadata (struct SURFACE_SEARCH): active grid dimensions,
    increments and domain. -/
structure SearchInfo (α : Type) where
  current_nx : ℕ
  current_ny : ℕ
  xinc : α
  yinc : α
  xlo : α
  xhi : α
  ylo : α
  yhi : α

/-- Macro index_to_col (surface.c line 170). -/
def index_to_col (index nx : ℕ) : ℕ := index % nx

/-- Macro index_to_row (surface.c line 172). -/
def index_to_row (index nx : ℕ) : ℕ := index / nx

/-- Macro col_to_x (surface.c line 162): exact at the easternmost column. -/
def col_to_x {α : Type} [LinearOrderedCommRing α] (col : ℕ) (x0 x1 dx : α) (n_cols : ℕ) : α :=
  if col = n_cols - 1 then x1 else x0 + (col : α) * dx

/-- Macro row_to_y (surface.c line 164): exact at the southernmost row. -/
def row_to_y {α : Type} [LinearOrderedCommRing α] (row : ℕ) (y0 y1 dy : α) (n_rows : ℕ) : α :=
  if row = n_rows - 1 then y0 else y1 - (row : α) * dy

/-- Distance comparison tail of surface_compare_points (lines 500-508),
    including the early exit on the partial x-only distance of the second
    point. -/
def surface_compare_dist {α : Type} [LinearOrderedCommRing α]
    (x1 y1 x2 y2 x0 y0 : α) : ℤ :=
  let dist_1 := (x1 - x0) * (x1 - x0) + (y1 - y0) * (y1 - y0)
  let dist_2a := (x2 - x0) * (x2 - x0)
  if dist_1 < dist_2a then -1
  else
    let dist_2 := dist_2a + (y2 - y0) * (y2 - y0)
    if dist_1 < dist_2 then -1
    else if dist_1 > dist_2 then 1
    else 0

/-- Embedding of surface_compare_points (surface.c lines 469-509): sort on
    bin index, then breaklines ahead of ordinary points, then squared
    Cartesian distance to the bin's node centre. -/
def surface_compare_points {α : Type} [LinearOrderedCommRing α]
    (info : SearchInfo α) (p1 p2 : SurfPoint α) : ℤ :=
  if p1.index < p2.index then -1
  else if p2.index < p1.index then 1
  else if p1.index = SURFACE_OUTSIDE then 0
  else if p1.kind = SURFACE_BREAKLINE ∧ p2.kind = 0 then -1
  else if p2.kind = SURFACE_BREAKLINE ∧ p1.kind = 0 then 1
  else
    surface_compare_dist p1.x p1.y p2.x p2.y
      (col_to_x (index_to_col p1.index info.current_nx) info.xlo info.xhi info.xinc
        info.current_nx)
      (row_to_y (index_to_row p1.index info.current_nx) info.ylo info.yhi info.yinc
        info.current_ny)

/-- A point ties with itself in the distance comparison. -/
theorem surface_compare_dist_self {α : Type} [LinearOrderedCommRing α]
    (x y x0 y0 : α) : surface_compare_dist x y x y x0 y0 = 0 := by
  simp only [surface_compare_dist]
  split_ifs with h1 h2
  · exact absurd h1 (by nlinarith [mul_self_nonneg (y - y0)])
  · exact absurd h2 (lt_irrefl _)
  · rfl

/-- The comparator is reflexive at value 0. -/
theorem surface_compare_points_self {α : Type} [LinearOrderedCommRing α]
    (info : SearchInfo α) (p : SurfPoint α) :
    surface_compare_points info p p = 0 := by
  have h1 : ¬ (p.index < p.index) := lt_irrefl _
  simp only [surface_compare_points, SURFACE_BREAKLINE]
  rw [if_neg h1, if_neg h1]
  split_ifs with h2 h3
  · rfl
  · omega
  · exact surface_compare_dist_self p.x p.y _ _

/-- A nonpositive comparison implies nondecreasing bin indices. -/
theorem surface_compare_points_index_le {α : Type} [LinearOrderedCommRing α]
    (info : SearchInfo α) (p1 p2 : SurfPoint α)
    (h : surface_compare_points info p1 p2 ≤ 0) : p1.index ≤ p2.index := by
  simp only [surface_compare_points] at h
  split_ifs at h <;> omega

/-- Within a bin that is not OUTSIDE, an ordinary point compares strictly
    after a breakline point. -/
theorem surface_compare_points_breakline {α : Type} [LinearOrderedCommRing α]
    (info : SearchInfo α) (p q : SurfPoint α)
    (hidx : p.index = q.index) (hout : p.index ≠ SURFACE_OUTSIDE)
    (hq : q.kind = SURFACE_BREAKLINE) (hp : p.kind = 0) :
    surface_compare_points info p q = 1 := by
  have hq1 : q.kind = 1 := by simpa [SURFACE_BREAKLINE] using hq
  have h1 : ¬ (p.index < q.index) := by omega
  have h2 : ¬ (q.index < p.index) := by omega
  simp only [surface_compare_points, SURFACE_BREAKLINE]
  rw [if_neg h1, if_neg h2, if_neg hout,
    if_neg (by omega : ¬ (p.kind = 1 ∧ q.kind = 0)), if_pos ⟨hq1, hp⟩]

/-! ## Deduplication (surface_throw_away_unusables, lines 1301-1340).
    The QSORT_R calls are modelled through their contract: the sorted arrays
    s1 (after the first sort) and s2 (after the second sort) are hypotheses
    of the main theorem, each a permutation of its input that is pairwise
    nondecreasing under the comparator. -/

/-- The marking scan of surface_throw_away_unusables (lines 1318-1329): in a
    run of records with the same index, every record after the first has its
    index overwritten with SURFACE_OUTSIDE. -/
def surface_mark_outside {α : Type} :
    Option ℕ → List (SurfPoint α) → List (SurfPoint α)
  | _, [] => []
  | last, p :: rest =>
    if some p.index = last then
      { p with index := SURFACE_OUTSIDE } :: surface_mark_outside last rest
    else p :: surface_mark_outside (some p.index) rest

/-- The records the marking scan keeps: the first record of every index run. -/
def surface_keep_firsts {α : Type} :
    Option ℕ → List (SurfPoint α) → List (SurfPoint α)
  | _, [] => []
  | last, p :: rest =>
    if some p.index = last then surface_keep_firsts last rest
    else p :: surface_keep_firsts (some p.index) rest

/-- Truncation step of surface_throw_away_unusables (lines 1331-1334): after
    the second sort the marked records lie at the tail and npoints is reduced
    by their number, chopping them off.  s1 is the array after the first
    sort (which the scan marked), s2 the array after the second sort. -/
def surface_throw_away_unusables {α : Type} [DecidableEq α]
    (s1 s2 : List (SurfPoint α)) : List (SurfPoint α) :=
  s2.take (s1.length -
    (surface_mark_outside none s1).countP (fun p => decide (p.index = SURFACE_OUTSIDE)))

/-- Marking preserves the number of records. -/
theorem surface_mark_outside_length {α : Type} (last : Option ℕ)
    (l : List (SurfPoint α)) :
    (surface_mark_outside last l).length = l.length := by
  induction l generalizing last with
  | nil => rfl
  | cons p rest ih =>
    simp only [surface_mark_outside]
    split_ifs <;> simp [ih]

/-- Filtering the marked list down to unmarked records yields exactly the
    firsts of the index runs (provided no input record is already OUTSIDE). -/
theorem surface_mark_outside_filter {α : Type} (last : Option ℕ)
    (l : List (SurfPoint α)) (hvalid : ∀ p ∈ l, p.index ≠ SURFACE_OUTSIDE) :
    (surface_mark_outside last l).filter
        (fun p => ! decide (p.index = SURFACE_OUTSIDE)) =
      surface_keep_firsts last l := by
  induction l generalizing last with
  | nil => rfl
  | cons p rest ih =>
    have hrest : ∀ q ∈ rest, q.index ≠ SURFACE_OUTSIDE :=
      fun q hq => hvalid q (List.mem_cons_of_mem p hq)
    have hp : p.index ≠ SURFACE_OUTSIDE := hvalid p (List.mem_cons_self p rest)
    simp only [surface_mark_outside, surface_keep_firsts]
    split_ifs with hc
    · simpa using ih last hrest
    · simpa [hp] using ih (some p.index) hrest

/-- Kept records are a sublist of the input. -/
theorem surface_keep_firsts_sublist {α : Type} (last : Option ℕ)
    (l : List (SurfPoint α)) :
    (surface_keep_firsts last l).Sublist l := by
  induction l generalizing last with
  | nil => exact List.Sublist.refl []
  | cons p rest ih =>
    simp only [surface_keep_firsts]
    split_ifs
    · exact (ih last).cons p
    · exact (ih (some p.index)).cons₂ p

/-- Starting a run scan below all indices of a sorted list, every kept record
    has index strictly above the running index. -/
theorem surface_keep_firsts_index_gt {α : Type} (l : List (SurfPoint α)) (j : ℕ)
    (hsort : l.Pairwise (fun p q => p.index ≤ q.index))
    (hlb : ∀ q ∈ l, j ≤ q.index) :
    ∀ p ∈ surface_keep_firsts (some j) l, j < p.index := by
  induction l generalizing j with
  | nil => intro p hp; exact absurd hp (List.not_mem_nil p)
  | cons a rest ih =>
    rcases List.pairwise_cons.mp hsort with ⟨ha, hrest⟩
    intro p hp
    simp only [surface_keep_firsts] at hp
    split_ifs at hp with hc
    · have haj : a.index = j := by simpa using hc
      exact ih j hrest (fun q hq => haj ▸ ha q hq) p hp
    · have haj : a.index ≠ j := fun h => hc (by simp [h])
      have hja : j < a.index :=
        lt_of_le_of_ne (hlb a (List.mem_cons_self a rest)) (Ne.symm haj)
      rcases List.mem_cons.mp hp with rfl | hp'
      · exact hja
      · exact lt_trans hja (ih a.index hrest ha p hp')

/-- The kept records of a sorted list have strictly increasing indices. -/
theorem surface_keep_firsts_pairwise {α : Type} (l : List (SurfPoint α))
    (last : Option ℕ) (hsort : l.Pairwise (fun p q => p.index ≤ q.index)) :
    (surface_keep_firsts last l).Pairwise (fun p q => p.index < q.index) := by
  induction l generalizing last with
  | nil => exact List.Pairwise.nil
  | cons a rest ih =>
    rcases List.pairwise_cons.mp hsort with ⟨ha, hrest⟩
    simp only [surface_keep_firsts]
    split_ifs
    · exact ih last hrest
    · exact List.pairwise_cons.mpr
        ⟨surface_keep_firsts_index_gt rest a.index hrest ha, ih (some a.index) hrest⟩

/-- Every kept record is a minimum of its bin under the comparator, among
    all records of the sorted list. -/
theorem surface_keep_firsts_min {α : Type} [LinearOrderedCommRing α]
    (info : SearchInfo α) (l : List (SurfPoint α)) (last : Option ℕ)
    (hsort : l.Pairwise (fun p q => surface_compare_points info p q ≤ 0)) :
    ∀ p ∈ surface_keep_firsts last l, ∀ q ∈ l, q.index = p.index →
      surface_compare_points info p q ≤ 0 := by
  induction l generalizing last with
  | nil => intro p hp; exact absurd hp (List.not_mem_nil p)
  | cons a rest ih =>
    rcases List.pairwise_cons.mp hsort with ⟨ha, hrest⟩
    have hidx : rest.Pairwise (fun p q => p.index ≤ q.index) :=
      hrest.imp (fun h => surface_compare_points_index_le info _ _ h)
    have hba : ∀ q ∈ rest, a.index ≤ q.index :=
      fun q hq => surface_compare_points_index_le info a q (ha q hq)
    intro p hp q hq hqi
    simp only [surface_keep_firsts] at hp
    split_ifs at hp with hc
    · rcases List.mem_cons.mp hq with rfl | hq'
      · rcases last with _ | j
        · exact absurd hc (by simp)
        · have haj : q.index = j := by simpa using hc
          have := surface_keep_firsts_index_gt rest j hidx
            (fun r hr => haj ▸ hba r hr) p hp
          omega
      · exact ih last hrest p hp q hq' hqi
    · rcases List.mem_cons.mp hp with rfl | hp'
      · rcases List.mem_cons.mp hq with rfl | hq'
        · exact le_of_eq (surface_compare_points_self info _)
        · exact ha q hq'
      · have hgt := surface_keep_firsts_index_gt rest a.index hidx hba p hp'
        rcases List.mem_cons.mp hq with rfl | hq'
        · omega
        · exact ih (some a.index) hrest p hp' q hq' hqi

/-- Every bin of the input is represented among the kept records (unless its
    index is the running index). -/
theorem surface_keep_firsts_cover {α : Type} (l : List (SurfPoint α))
    (last : Option ℕ) :
    ∀ q ∈ l, some q.index = last ∨
      ∃ p ∈ surface_keep_firsts last l, p.index = q.index := by
  induction l generalizing last with
  | nil => intro q hq; exact absurd hq (List.not_mem_nil q)
  | cons a rest ih
  =>
    intro q hq
    simp only [surface_keep_firsts]
    split_ifs with hc
    · rcases List.mem_cons.mp hq with rfl | hq'
      · exact Or.inl hc
      · exact ih last q hq'
    · rcases List.mem_cons.mp hq with rfl | hq'
      · exact Or.inr ⟨q, List.mem_cons_self q _, rfl⟩
      · rcases ih (some a.index) q hq' with h | ⟨p, hp, he⟩
        · have : q.index = a.index := by simpa using h
          exact Or.inr ⟨a, List.mem_cons_self a _, this.symm⟩
        · exact Or.inr ⟨p, List.mem_cons_of_mem a hp, he⟩

/-- Marked records keep their index bound. -/
theorem surface_mark_outside_index_le {α : Type} (last : Option ℕ)
    (l : List (SurfPoint α)) (hvalid : ∀ p ∈ l, p.index ≤ SURFACE_OUTSIDE) :
    ∀ p ∈ surface_mark_outside last l, p.index ≤ SURFACE_OUTSIDE := by
  induction l generalizing last with
  | nil => intro p hp; exact absurd hp (List.not_mem_nil p)
  | cons a rest ih =>
    have hrest : ∀ q ∈ rest, q.index ≤ SURFACE_OUTSIDE :=
      fun q hq => hvalid q (List.mem_cons_of_mem a hq)
    intro p hp
    simp only [surface_mark_outside] at hp
    split_ifs at hp with hc
    · rcases List.mem_cons.mp hp with rfl | hp'
      · exact le_refl _
      · exact ih last hrest p hp'
    · rcases List.mem_cons.mp hp with rfl | hp'
      · exact hvalid p (List.mem_cons_self p rest)
      · exact ih (some a.index) hrest p hp'

/-- A list that is pairwise upward closed under a predicate splits as the
    failing records followed by the satisfying records. -/
theorem filter_append_of_pairwise_closed {β : Type} (pr : β → Bool) (l : List β)
    (h : l.Pairwise (fun a b => pr a = true → pr b = true)) :
    l = l.filter (fun x => ! pr x) ++ l.filter pr := by
  induction l with
  | nil => rfl
  | cons a rest ih =>
    rcases List.pairwise_cons.mp h with ⟨ha, hrest⟩
    by_cases hp : pr a = true
    · have h1 : rest.filter (fun x => ! pr x) = [] := by
        rw [List.filter_eq_nil_iff]
        intro b hb
        simp [ha b hb hp]
      have h2 : rest.filter pr = rest := List.filter_eq_self.mpr (fun b hb => ha b hb hp)
      simp only [List.filter_cons, hp, Bool.not_true, Bool.false_eq_true, if_false, if_true,
        h1, List.nil_append]
      rw [h2]
    · have hp' : pr a = false := by simpa using hp
      simp only [List.filter_cons, hp', Bool.not_false, Bool.false_eq_true, if_false, if_true,
        List.cons_append]
      exact congrArg (a :: ·) (ih hrest)

/-- Truncating a list that keeps its satisfying records at the tail by the
    number of satisfying records leaves exactly the failing records. -/
theorem take_sub_countP_eq_filter {β : Type} (pr : β → Bool) (l : List β)
    (h : l.Pairwise (fun a b => pr a = true → pr b = true)) :
    l.take (l.length - l.countP pr) = l.filter (fun x => ! pr x) := by
  have hdec := filter_append_of_pairwise_closed pr l h
  have hcnt : l.countP pr = (l.filter pr).length := List.countP_eq_length_filter pr l
  have hlen : l.length = (l.filter (fun x => ! pr x)).length + (l.filter pr).length := by
    conv_lhs => rw [hdec]
    rw [List.length_append]
  rw [hcnt, show l.length - (l.filter pr).length = (l.filter (fun x => ! pr x)).length
    from by omega]
  nth_rewrite 2 [hdec]
  exact List.take_left _ _

/-- C4: after surface_throw_away_unusables the retained data points have
    pairwise distinct bin indices; every bin of the input is still
    represented, and its retained point is one of the original points of the
    bin and is minimal there under the comparator order (breaklines ahead of
    ordinary points, then ascending squared distance to the bin's node); in
    particular a bin containing a breakline point retains a breakline point.
    The two QSORT_R calls are modelled by their contract: s1 is a sorted
    permutation of the data and s2 a sorted permutation of the marked list. -/
theorem surface_throw_away_unusables_correct {α : Type} [LinearOrderedCommRing α]
    (info : SearchInfo α) (data s1 s2 : List (SurfPoint α))
    (hvalid : ∀ p ∈ data, p.index < SURFACE_OUTSIDE)
    (hkind : ∀ p ∈ data, p.kind = 0 ∨ p.kind = SURFACE_BREAKLINE)
    (hperm1 : data.Perm s1)
    (hsort1 : s1.Pairwise (fun p q => surface_compare_points info p q ≤ 0))
    (hperm2 : (surface_mark_outside none s1).Perm s2)
    (hsort2 : s2.Pairwise (fun p q => surface_compare_points info p q ≤ 0)) :
    ((surface_throw_away_unusables s1 s2).map (fun p => p.index)).Nodup ∧
    (∀ q ∈ data, ∃ p ∈ surface_throw_away_unusables s1 s2,
      p.index = q.index ∧ p ∈ data ∧
      ∀ r ∈ data, r.index = q.index → surface_compare_points info p r ≤ 0) ∧
    (∀ q ∈ data, q.kind = SURFACE_BREAKLINE →
      ∀ p ∈ surface_throw_away_unusables s1 s2, p.index = q.index →
        p.kind = SURFACE_BREAKLINE) := by
  have hvalid1 : ∀ p ∈ s1, p.index < SURFACE_OUTSIDE :=
    fun p hp => hvalid p (hperm1.mem_iff.mpr hp)
  have hidx1 : s1.Pairwise (fun p q => p.index ≤ q.index) :=
    hsort1.imp (fun h => surface_compare_points_index_le info _ _ h)
  have hfilterK : (surface_mark_outside none s1).filter
      (fun p => ! decide (p.index = SURFACE_OUTSIDE)) = surface_keep_firsts none s1 :=
    surface_mark_outside_filter none s1 (fun p hp => ne_of_lt (hvalid1 p hp))
  have hbound2 : ∀ p ∈ s2, p.index ≤ SURFACE_OUTSIDE := by
    intro p hp
    exact surface_mark_outside_index_le none s1
      (fun q hq => le_of_lt (hvalid1 q hq)) p (hperm2.mem_iff.mpr hp)
  have hclosed : s2.Pairwise (fun a b =>
      (fun p => decide (p.index = SURFACE_OUTSIDE)) a = true →
      (fun p => decide (p.index = SURFACE_OUTSIDE)) b = true) := by
    refine hsort2.imp_of_mem ?_
    intro a b ha hb hcmp hpa
    have ha' : a.index = SURFACE_OUTSIDE := of_decide_eq_true hpa
    have hab : a.index ≤ b.index := surface_compare_points_index_le info a b hcmp
    have : b.index = SURFACE_OUTSIDE := le_antisymm (hbound2 b hb) (ha' ▸ hab)
    exact decide_eq_true this
  have hlen12 : s1.length = s2.length := by
    rw [← hperm2.length_eq, surface_mark_outside_length]
  have hcnt : (surface_mark_outside none s1).countP
      (fun p => decide (p.index = SURFACE_OUTSIDE)) =
      s2.countP (fun p => decide (p.index = SURFACE_OUTSIDE)) :=
    hperm2.countP_eq _
  have hretained : surface_throw_away_unusables s1 s2 =
      s2.filter (fun p => ! decide (p.index = SURFACE_OUTSIDE)) := by
    unfold surface_throw_away_unusables
    rw [hcnt, hlen12]
    exact take_sub_countP_eq_filter _ s2 hclosed
  have hpermRK : (surface_throw_away_unusables s1 s2).Perm (surface_keep_firsts none s1) := by
    rw [hretained, ← hfilterK]
    exact (hperm2.filter _).symm
  have hKsub : (surface_keep_firsts none s1).Sublist s1 := surface_keep_firsts_sublist none s1
  have hmemdata : ∀ p ∈ surface_throw_away_unusables s1 s2, p ∈ data := by
    intro p hp
    exact hperm1.mem_iff.mpr (List.Sublist.mem (hpermRK.mem_iff.mp hp) hKsub)
  refine ⟨?_, ?_, ?_⟩
  · have hKpair : (surface_keep_firsts none s1).Pairwise (fun p q => p.index < q.index) :=
      surface_keep_firsts_pairwise s1 none hidx1
    have hnd : ((surface_keep_firsts none s1).map (fun p => p.index)).Nodup :=
      (List.pairwise_map.mpr hKpair).imp (fun h => Nat.ne_of_lt h)
    exact ((hpermRK.map (fun p => p.index)).nodup_iff).mpr hnd
  · intro q hq
    have hqs1 : q ∈ s1 := hperm1.mem_iff.mp hq
    rcases surface_keep_firsts_cover s1 none q hqs1 with h | ⟨p, hpK, he⟩
    · exact absurd h (by simp)
    · refine ⟨p, hpermRK.mem_iff.mpr hpK, he,
        hperm1.mem_iff.mpr (List.Sublist.mem hpK hKsub), ?_⟩
      intro r hr hri
      exact surface_keep_firsts_min info s1 none hsort1 p hpK r
        (hperm1.mem_iff.mp hr) (by omega)
  · intro q hq hqbl p hp hpi
    have hpK : p ∈ surface_keep_firsts none s1 := hpermRK.mem_iff.mp hp
    have hmin : surface_compare_points info p q ≤ 0 :=
      surface_keep_firsts_min info s1 none hsort1 p hpK q (hperm1.mem_iff.mp hq) hpi.symm
    rcases hkind p (hmemdata p hp) with h0 | h1
    · have : surface_compare_points info p q = 1 :=
        surface_compare_points_breakline info p q hpi
          (ne_of_lt (hvalid p (hmemdata p hp))) hqbl h0
      omega
    · exact h1

/-- Concrete comparator metadata for the C4 witness: a 4 x 4 unit grid. -/
def c4info : SearchInfo ℤ :=
  { current_nx := 4, current_ny := 4, xinc := 1, yinc := 1,
    xlo := 0, xhi := 3, ylo := 0, yhi := 3 }

/-- Concrete data for the C4 witness: a breakline point in bin 0 and two
    ordinary points sharing bin 5, already in comparator order. -/
def c4data : List (SurfPoint ℤ) :=
  [{ x := 0, y := 3, z := 30, kind := 1, index := 0 },
   { x := 1, y := 2, z := 10, kind := 0, index := 5 },
   { x := 2, y := 2, z := 20, kind := 0, index := 5 }]

/-- The marked array of the C4 witness (it happens to be sorted already, so
    it serves as the second sorted array as well). -/
def c4s2 : List (SurfPoint ℤ) := surface_mark_outside none c4data

/-- Witness for C4 on the concrete 4 x 4 instance. -/
theorem surface_throw_away_unusables_correct_witness :
    ((surface_throw_away_unusables c4data c4s2).map (fun p => p.index)).Nodup ∧
    (∀ q ∈ c4data, ∃ p ∈ surface_throw_away_unusables c4data c4s2,
      p.index = q.index ∧ p ∈ c4data ∧
      ∀ r ∈ c4data, r.index = q.index → surface_compare_points c4info p r ≤ 0) ∧
    (∀ q ∈ c4data, q.kind = SURFACE_BREAKLINE →
      ∀ p ∈ surface_throw_away_unusables c4data c4s2, p.index = q.index →
        p.kind = SURFACE_BREAKLINE) :=
  surface_throw_away_unusables_correct c4info c4data c4data c4s2
    (by decide) (by decide) (List.Perm.refl c4data) (by decide)
    (List.Perm.refl c4s2) (by decide)

/-! ## Nearest-constraint pass and Briggs table alignment
    (surface_find_nearest_constraint lines 575-658, surface_set_index lines
    517-542, surface_iterate lines 1102-1130). -/

/-- Node status constant: no data constraint in the bin. -/
def SURFACE_IS_UNCONSTRAINED : ℕ := 0

/-- Node status constant: node value is fixed. -/
def SURFACE_IS_CONSTRAINED : ℕ := 5

/-- Macro row_col_to_node (surface.c line 150): node id including the 2-cell
    boundary halo of width mx = current_nx + 4. -/
def row_col_to_node (row col mx : ℕ) : ℕ := (row + 2) * mx + (col + 2)

/-- The node id owning a bin index on the active grid. -/
def surface_node_of (nx index : ℕ) : ℕ :=
  row_col_to_node (index_to_row index nx) (index_to_col index nx) (nx + 4)

/-- Row-major bin order maps to strictly increasing node ids. -/
theorem surface_node_of_lt (nx i j : ℕ) (hnx : 0 < nx) (hij : i < j) :
    surface_node_of nx i < surface_node_of nx j := by
  unfold surface_node_of row_col_to_node index_to_row index_to_col
  have hi : i % nx < nx := Nat.mod_lt i hnx
  have hj : j % nx < nx := Nat.mod_lt j hnx
  have hd : i / nx ≤ j / nx := Nat.div_le_div_right (le_of_lt hij)
  rcases eq_or_lt_of_le hd with he | hl
  · have hmod : i % nx < j % nx := by
      have h1 := Nat.div_add_mod i nx
      have h2 := Nat.div_add_mod j nx
      have h3 : nx * (i / nx) = nx * (j / nx) := by rw [he]
      omega
    rw [he]
    exact Nat.add_lt_add_left (by omega) _
  · calc (i / nx + 2) * (nx + 4) + (i % nx + 2)
        < (i / nx + 2) * (nx + 4) + (nx + 4) := Nat.add_lt_add_left (by omega) _
      _ = (i / nx + 3) * (nx + 4) := by ring
      _ ≤ (j / nx + 2) * (nx + 4) := Nat.mul_le_mul_right _ (by omega)
      _ ≤ (j / nx + 2) * (nx + 4) + (j % nx + 2) := Nat.le_add_right _ _

/-- Node ids determine bin indices. -/
theorem surface_node_of_inj (nx i j : ℕ) (hnx : 0 < nx)
    (h : surface_node_of nx i = surface_node_of nx j) : i = j := by
  rcases Nat.lt_trichotomy i j with hij | hij | hij
  · exact absurd h (ne_of_lt (surface_node_of_lt nx i j hnx hij))
  · exact hij
  · exact absurd h.symm (ne_of_lt (surface_node_of_lt nx j i hnx hij))

/-- Macro x_to_fcol (line 154): fractional column offset. -/
def x_to_fcol (x x0 idx : ℚ) : ℚ := (x - x0) * idx

/-- Macro y_to_frow (line 158): fractional row offset, positive up. -/
def y_to_frow (y y0 idy : ℚ) : ℚ := (y - y0) * idy

/-- The fields of struct SURFACE_INFO used by surface_find_nearest_constraint:
    active grid shape, increments with their cached reciprocals (C->r_inc),
    domain, the constants of the constrained-fit equations, the reciprocal
    data rms, the plane slopes and the optional clipping bounds (indexed by
    final-grid row and column; none models NaN). -/
structure NearestParams where
  current_nx : ℕ
  current_ny : ℕ
  current_stride : ℕ
  xinc : ℚ
  yinc : ℚ
  r_xinc : ℚ
  r_yinc : ℚ
  xlo : ℚ
  xhi : ℚ
  ylo : ℚ
  yhi : ℚ
  a0_const_1 : ℚ
  a0_const_2 : ℚ
  r_z_rms : ℚ
  plane_sx : ℚ
  plane_sy : ℚ
  set_limit_lo : Bool
  set_limit_hi : Bool
  bound_lo : ℕ → ℕ → Option ℚ
  bound_hi : ℕ → ℕ → Option ℚ

/-- Fractional x-offset dx of a datum from its bin node (lines 601-604). -/
def surface_constraint_dx (P : NearestParams) (p : SurfPoint ℚ) : ℚ :=
  x_to_fcol p.x
    (col_to_x (index_to_col p.index P.current_nx) P.xlo P.xhi P.xinc P.current_nx)
    P.r_xinc

/-- Fractional y-offset dy of a datum from its bin node (lines 602-605). -/
def surface_constraint_dy (P : NearestParams) (p : SurfPoint ℚ) : ℚ :=
  y_to_frow p.y
    (row_to_y (index_to_row p.index P.current_nx) P.ylo P.yhi P.yinc P.current_ny)
    P.r_yinc

/-- The exactness test of line 609: the datum sits within 5 percent of the
    grid spacing of the node in both axes. -/
def surface_is_exact (P : NearestParams) (p : SurfPoint ℚ) : Prop :=
  |surface_constraint_dx P p| < SURFACE_CLOSENESS_FACTOR ∧
  |surface_constraint_dy P p| < SURFACE_CLOSENESS_FACTOR

instance (P : NearestParams) (p : SurfPoint ℚ) : Decidable (surface_is_exact P p) := by
  unfold surface_is_exact
  infer_instance

/-- Value fixed at an exactly-constrained node (lines 619-627): the datum
    value plus the plane-trend correction, clipped against the bounds with
    the else-if of lines 622-625. -/
def surface_constrained_value (P : NearestParams) (row col : ℕ) (p : SurfPoint ℚ)
    (dx dy : ℚ) : ℚ :=
  let z_at_node := p.z +
    P.r_z_rms * (P.current_stride : ℚ) * evaluate_trend P.plane_sx P.plane_sy dx dy
  let lo := match P.set_limit_lo,
      P.bound_lo (P.current_stride * row) (P.current_stride * col) with
    | true, some b => some b
    | _, _ => none
  let hi := match P.set_limit_hi,
      P.bound_hi (P.current_stride * row) (P.current_stride * col) with
    | true, some b => some b
    | _, _ => none
  match lo with
  | some b =>
    if z_at_node < b then b
    else match hi with
      | some b2 => if z_at_node > b2 then b2 else z_at_node
      | none => z_at_node
  | none => match hi with
    | some b2 => if z_at_node > b2 then b2 else z_at_node
    | none => z_at_node

/-- One recorded action of surface_find_nearest_constraint: the chosen bin
    node is either fixed to a value or given a quadrant status 1..4 together
    with its Briggs entry. -/
inductive NodeAssign where
  | constrained (node : ℕ) (value : ℚ)
  | quad (node : ℕ) (quadrant : ℕ) (entry : BriggsEntry)
deriving DecidableEq, Repr

/-- The node an assignment addresses. -/
def NodeAssign.nodeId : NodeAssign → ℕ
  | .constrained n _ => n
  | .quad n _ _ => n

/-- Action of surface_find_nearest_constraint (lines 594-655) on the first
    data point of a bin: an exact node constraint within 5 percent of the
    spacing, otherwise a quadrant status and the Briggs coefficients of the
    first-quadrant-reflected offsets. -/
def surface_assign (P : NearestParams) (p : SurfPoint ℚ) : NodeAssign :=
  if surface_is_exact P p then
    .constrained (surface_node_of P.current_nx p.index)
      (surface_constrained_value P (index_to_row p.index P.current_nx)
        (index_to_col p.index P.current_nx) p
        (surface_constraint_dx P p) (surface_constraint_dy P p))
  else
    .quad (surface_node_of P.current_nx p.index)
      (surface_quadrant (surface_constraint_dx P p) (surface_constraint_dy P p))
      (surface_solve_Briggs_coefficients P.a0_const_1 P.a0_const_2
        (surface_reflect_xx (surface_constraint_dx P p) (surface_constraint_dy P p))
        (surface_reflect_yy (surface_constraint_dx P p) (surface_constraint_dy P p))
        p.z)

/-- The full pass of surface_find_nearest_constraint over the sorted data
    array: each bin is addressed once, via the last_index guard of line 594,
    and assignments are recorded in scan order. -/
def surface_find_nearest_constraint (P : NearestParams) :
    List (SurfPoint ℚ) → Option ℕ → List NodeAssign
  | [], _ => []
  | p :: rest, last =>
    if some p.index = last then surface_find_nearest_constraint P rest last
    else surface_assign P p :: surface_find_nearest_constraint P rest (some p.index)

/-- The status array after the pass: all nodes are first reset to
    SURFACE_IS_UNCONSTRAINED (lines 587-589), then the recorded assignments
    give a node its constrained or quadrant status. -/
def surface_status (assigns : List NodeAssign) (node : ℕ) : ℕ :=
  match assigns.find? (fun a => a.nodeId == node) with
  | some (.constrained _ _) => SURFACE_IS_CONSTRAINED
  | some (.quad _ q _) => q
  | none => SURFACE_IS_UNCONSTRAINED

/-- The Briggs table in fill order: briggs_index increments once per
    quadrant assignment (lines 653-654). -/
def surface_Briggs_table (assigns : List NodeAssign) : List BriggsEntry :=
  assigns.filterMap (fun a => match a with
    | .quad _ _ b => some b
    | _ => none)

/-- The quadrant assignments in fill order, paired as (node, Briggs entry). -/
def surface_quad_assigns (assigns : List NodeAssign) : List (ℕ × BriggsEntry) :=
  assigns.filterMap (fun a => match a with
    | .quad n _ b => some (n, b)
    | _ => none)

/-- The interior nodes in the row-major visit order of surface_iterate
    (lines 1108-1111): the double loop visits node_nw_corner + row*mx + col,
    which is surface_node_of nx (row*nx + col), in increasing order of the
    flattened bin index. -/
def surface_sweep_nodes (nx ny : ℕ) : List ℕ :=
  (List.range (ny * nx)).map (surface_node_of nx)

/-- The sweep nodes carrying a quadrant status 1..4: exactly these read one
    sequential Briggs entry during the sweep (lines 1122-1130). -/
def surface_sweep_quad_nodes (assigns : List NodeAssign) (nx ny : ℕ) : List ℕ :=
  (surface_sweep_nodes nx ny).filter
    (fun node => decide (1 ≤ surface_status assigns node ∧ surface_status assigns node ≤ 4))

/-- The pass processes exactly the first record of each bin run. -/
theorem surface_find_nearest_constraint_eq (P : NearestParams)
    (l : List (SurfPoint ℚ)) (last : Option ℕ) :
    surface_find_nearest_constraint P l last =
      (surface_keep_firsts last l).map (surface_assign P) := by
  induction l generalizing last with
  | nil => rfl
  | cons a rest ih =>
    simp only [surface_find_nearest_constraint, surface_keep_firsts]
    split_ifs
    · exact ih last
    · simp [ih (some a.index)]

/-- An assignment addresses the node of its datum's bin. -/
theorem surface_assign_nodeId (P : NearestParams) (p : SurfPoint ℚ) :
    (surface_assign P p).nodeId = surface_node_of P.current_nx p.index := by
  unfold surface_assign
  split_ifs <;> rfl

/-- Quadrant codes lie in 1..4. -/
theorem surface_quadrant_mem (dx dy : ℚ) :
    1 ≤ surface_quadrant dx dy ∧ surface_quadrant dx dy ≤ 4 := by
  unfold surface_quadrant
  split_ifs <;> omega

/-- In a list of assignments with strictly increasing node ids, lookup by a
    member's node id returns that member. -/
theorem surface_find_nodeId (A : List NodeAssign)
    (hA : A.Pairwise (fun a b => a.nodeId < b.nodeId)) (a : NodeAssign) (ha : a ∈ A) :
    A.find? (fun x => x.nodeId == a.nodeId) = some a := by
  induction A with
  | nil => exact absurd ha (List.not_mem_nil a)
  | cons h t ih =>
    rcases List.pairwise_cons.mp hA with ⟨hh, ht⟩
    rcases List.mem_cons.mp ha with rfl | ha'
    · exact List.find?_cons_of_pos t (by simp)
    · have hlt : h.nodeId < a.nodeId := hh a ha'
      rw [List.find?_cons_of_neg t (by simp; omega)]
      exact ih ht ha'

/-- Lookup misses return none. -/
theorem surface_find_nodeId_none (A : List NodeAssign) (n : ℕ)
    (h : ∀ a ∈ A, a.nodeId ≠ n) :
    A.find? (fun x => x.nodeId == n) = none :=
  List.find?_eq_none.mpr (fun a ha => by simp [h a ha])

/-- The Briggs table lists the entries of the quadrant assignments in order. -/
theorem surface_Briggs_table_eq_snd (A : List NodeAssign) :
    surface_Briggs_table A = (surface_quad_assigns A).map Prod.snd := by
  induction A with
  | nil => rfl
  | cons a t ih =>
    cases a <;>
      simp [surface_Briggs_table, surface_quad_assigns, List.filterMap_cons, ih,
        surface_Briggs_table, surface_quad_assigns] <;>
      simpa [surface_Briggs_table, surface_quad_assigns] using ih

/-- The quadrant assignments of the mapped pass are the non-exact kept data
    in order, paired with their bin nodes and Briggs entries. -/
theorem surface_quad_assigns_eq (P : NearestParams) (K : List (SurfPoint ℚ)) :
    surface_quad_assigns (K.map (surface_assign P)) =
      (K.filter (fun p => ! decide (surface_is_exact P p))).map
        (fun p => (surface_node_of P.current_nx p.index,
          surface_solve_Briggs_coefficients P.a0_const_1 P.a0_const_2
            (surface_reflect_xx (surface_constraint_dx P p) (surface_constraint_dy P p))
            (surface_reflect_yy (surface_constraint_dx P p) (surface_constraint_dy P p))
            p.z)) := by
  induction K with
  | nil => rfl
  | cons p t ih =>
    by_cases hc : surface_is_exact P p
    · simp only [List.map_cons, surface_quad_assigns, List.filterMap_cons,
        surface_assign, if_pos hc, List.filter_cons, hc]
      simpa [surface_quad_assigns] using ih
    · simp only [List.map_cons, surface_quad_assigns, List.filterMap_cons,
        surface_assign, if_neg hc, List.filter_cons, hc]
      simpa [surface_quad_assigns] using congrArg
        (List.cons (surface_node_of P.current_nx p.index,
          surface_solve_Briggs_coefficients P.a0_const_1 P.a0_const_2
            (surface_reflect_xx (surface_constraint_dx P p) (surface_constraint_dy P p))
            (surface_reflect_yy (surface_constraint_dx P p) (surface_constraint_dy P p))
            p.z)) ih

/-- A strictly increasing list of naturals below N is recovered by filtering
    the range by any predicate that agrees with membership. -/
theorem filter_range_eq_of_sorted (l : List ℕ) (N : ℕ) (hl : l.Pairwise (· < ·))
    (hb : ∀ x ∈ l, x < N) (pr : ℕ → Bool)
    (hpr : ∀ i, i < N → (pr i = true ↔ i ∈ l)) :
    (List.range N).filter pr = l := by
  have h1 : ((List.range N).filter pr).Pairwise (· < ·) :=
    (List.pairwise_lt_range N).filter pr
  have hnd1 : ((List.range N).filter pr).Nodup := h1.imp (fun h => Nat.ne_of_lt h)
  have hnd2 : l.Nodup := hl.imp (fun h => Nat.ne_of_lt h)
  have hmem : ∀ a, a ∈ (List.range N).filter pr ↔ a ∈ l := by
    intro a
    rw [List.mem_filter, List.mem_range]
    constructor
    · rintro ⟨haN, hpa⟩
      exact (hpr a haN).mp hpa
    · intro hal
      exact ⟨hb a hal, (hpr a (hb a hal)).mpr hal⟩
  have hperm := (List.perm_ext_iff_of_nodup hnd1 hnd2).mpr hmem
  haveI : IsAntisymm ℕ (· < ·) :=
    ⟨fun a b ha hb' => absurd (lt_trans ha hb') (lt_irrefl a)⟩
  exact List.eq_of_perm_of_sorted hperm h1 hl

/-- C9: given the data sorted by ascending bin index, one pass of
    surface_find_nearest_constraint records quadrant statuses and fills the
    Briggs table in ascending row-major node order, so that in a sweep of
    surface_iterate the k-th node encountered in row-major order whose
    status is a quadrant code 1..4 reads exactly the sequential Briggs entry
    k, and that entry was computed from that same node's nearest datum:
    the quadrant-status sweep nodes (in visit order) equal the first
    components of the quadrant assignments (in fill order), the Briggs table
    equals their second components, and each quadrant assignment pairs the
    node of one data point with the Briggs coefficients of that point. -/
theorem surface_find_nearest_constraint_Briggs_aligned (P : NearestParams)
    (data : List (SurfPoint ℚ)) (hnx : 0 < P.current_nx)
    (hsorted : data.Pairwise (fun p q => p.index ≤ q.index))
    (hvalid : ∀ p ∈ data, p.index < P.current_ny * P.current_nx) :
    surface_sweep_quad_nodes (surface_find_nearest_constraint P data none)
        P.current_nx P.current_ny =
      (surface_quad_assigns (surface_find_nearest_constraint P data none)).map Prod.fst ∧
    surface_Briggs_table (surface_find_nearest_constraint P data none) =
      (surface_quad_assigns (surface_find_nearest_constraint P data none)).map Prod.snd ∧
    ∀ pr ∈ surface_quad_assigns (surface_find_nearest_constraint P data none),
      ∃ p ∈ data, pr.1 = surface_node_of P.current_nx p.index ∧
        surface_status (surface_find_nearest_constraint P data none) pr.1 =
          surface_quadrant (surface_constraint_dx P p) (surface_constraint_dy P p) ∧
        pr.2 = surface_solve_Briggs_coefficients P.a0_const_1 P.a0_const_2
          (surface_reflect_xx (surface_constraint_dx P p) (surface_constraint_dy P p))
          (surface_reflect_yy (surface_constraint_dx P p) (surface_constraint_dy P p))
          p.z := by
  have hAK : surface_find_nearest_constraint P data none =
      (surface_keep_firsts none data).map (surface_assign P) :=
    surface_find_nearest_constraint_eq P data none
  have hKpair : (surface_keep_firsts none data).Pairwise (fun p q => p.index < q.index) :=
    surface_keep_firsts_pairwise data none hsorted
  have hKsub : (surface_keep_firsts none data).Sublist data :=
    surface_keep_firsts_sublist none data
  have hKvalid : ∀ p ∈ surface_keep_firsts none data,
      p.index < P.current_ny * P.current_nx :=
    fun p hp => hvalid p (List.Sublist.mem hp hKsub)
  have hApair : (surface_find_nearest_constraint P data none).Pairwise
      (fun a b => a.nodeId < b.nodeId) := by
    rw [hAK]
    refine List.pairwise_map.mpr (hKpair.imp ?_)
    intro p q h
    rw [surface_assign_nodeId, surface_assign_nodeId]
    exact surface_node_of_lt P.current_nx p.index q.index hnx h
  have hstatus_mem : ∀ p ∈ surface_keep_firsts none data,
      surface_status (surface_find_nearest_constraint P data none)
        (surface_node_of P.current_nx p.index) =
      (if surface_is_exact P p then SURFACE_IS_CONSTRAINED else
        surface_quadrant (surface_constraint_dx P p) (surface_constraint_dy P p)) := by
    intro p hp
    have hmem : surface_assign P p ∈ surface_find_nearest_constraint P data none := by
      rw [hAK]
      exact List.mem_map_of_mem _ hp
    have hfind := surface_find_nodeId _ hApair (surface_assign P p) hmem
    rw [surface_assign_nodeId] at hfind
    unfold surface_status
    rw [hfind]
    by_cases hc : surface_is_exact P p
    · simp [surface_assign, hc]
    · simp [surface_assign, hc]
  have hstatus_none : ∀ n,
      (∀ a ∈ surface_find_nearest_constraint P data none, a.nodeId ≠ n) →
      surface_status (surface_find_nearest_constraint P data none) n =
        SURFACE_IS_UNCONSTRAINED := by
    intro n h
    unfold surface_status
    rw [surface_find_nodeId_none _ n h]
  have hQsubK : ((surface_keep_firsts none data).filter
      (fun p => ! decide (surface_is_exact P p))).Sublist (surface_keep_firsts none data) :=
    List.filter_sublist _
  have hQpair : (((surface_keep_firsts none data).filter
      (fun p => ! decide (surface_is_exact P p))).map (fun p => p.index)).Pairwise (· < ·) :=
    List.pairwise_map.mpr (List.Pairwise.sublist hQsubK hKpair)
  have hQbound : ∀ x ∈ ((surface_keep_firsts none data).filter
      (fun p => ! decide (surface_is_exact P p))).map (fun p => p.index),
      x < P.current_ny * P.current_nx := by
    intro x hx
    rcases List.mem_map.mp hx with ⟨p, hp, rfl⟩
    exact hKvalid p (List.Sublist.mem hp hQsubK)
  have hagree : ∀ i, i < P.current_ny * P.current_nx →
      ((decide (1 ≤ surface_status (surface_find_nearest_constraint P data none)
          (surface_node_of P.current_nx i) ∧
        surface_status (surface_find_nearest_constraint P data none)
          (surface_node_of P.current_nx i) ≤ 4)) = true ↔
        i ∈ ((surface_keep_firsts none data).filter
          (fun p => ! decide (surface_is_exact P p))).map (fun p => p.index)) := by
    intro i _
    rw [decide_eq_true_eq]
    constructor
    · rintro ⟨h1, h4⟩
      by_cases hex : ∃ p ∈ surface_keep_firsts none data, p.index = i
      · obtain ⟨p, hpK, rfl⟩ := hex
        by_cases hc : surface_is_exact P p
        · rw [hstatus_mem p hpK, if_pos hc] at h4
          exact absurd h4 (by norm_num [SURFACE_IS_CONSTRAINED])
        · exact List.mem_map.mpr
            ⟨p, List.mem_filter.mpr ⟨hpK, by simpa using hc⟩, rfl⟩
      · have hnone : ∀ a ∈ surface_find_nearest_constraint P data none,
            a.nodeId ≠ surface_node_of P.current_nx i := by
          intro a ha
          rw [hAK] at ha
          rcases List.mem_map.mp ha with ⟨p, hpK, rfl⟩
          rw [surface_assign_nodeId]
          intro heq
          exact hex ⟨p, hpK, surface_node_of_inj P.current_nx p.index i hnx heq⟩
        rw [hstatus_none _ hnone] at h1
        exact absurd h1 (by norm_num [SURFACE_IS_UNCONSTRAINED])
    · intro hmem
      rcases List.mem_map.mp hmem with ⟨p, hpQ, rfl⟩
      have hpK : p ∈ surface_keep_firsts none data := List.Sublist.mem hpQ hQsubK
      have hnc : ¬ surface_is_exact P p := by
        simpa using (List.mem_filter.mp hpQ).2
      rw [hstatus_mem p hpK, if_neg hnc]
      exact surface_quadrant_mem _ _
  have hmain : surface_sweep_quad_nodes (surface_find_nearest_constraint P data none)
      P.current_nx P.current_ny =
      (((surface_keep_firsts none data).filter
        (fun p => ! decide (surface_is_exact P p))).map (fun p => p.index)).map
          (surface_node_of P.current_nx) := by
    unfold surface_sweep_quad_nodes surface_sweep_nodes
    rw [List.filter_map]
    exact congrArg (List.map (surface_node_of P.current_nx))
      (filter_range_eq_of_sorted _ _ hQpair hQbound _ hagree)
  refine ⟨?_, surface_Briggs_table_eq_snd _, ?_⟩
  · rw [hmain]
    conv_rhs => rw [hAK]
    rw [surface_quad_assigns_eq, List.map_map, List.map_map]
    rfl
  · intro pr hpr
    rw [hAK, surface_quad_assigns_eq] at hpr
    rcases List.mem_map.mp hpr with ⟨p, hpQ, rfl⟩
    have hpK : p ∈ surface_keep_firsts none data := List.Sublist.mem hpQ (List.filter_sublist _)
    have hnc : ¬ surface_is_exact P p := by
      simpa using (List.mem_filter.mp hpQ).2
    refine ⟨p, List.Sublist.mem hpK hKsub, rfl, ?_, rfl⟩
    rw [show ((surface_node_of P.current_nx p.index,
        surface_solve_Briggs_coefficients P.a0_const_1 P.a0_const_2
          (surface_reflect_xx (surface_constraint_dx P p) (surface_constraint_dy P p))
          (surface_reflect_yy (surface_constraint_dx P p) (surface_constraint_dy P p))
          p.z) : ℕ × BriggsEntry).1 = surface_node_of P.current_nx p.index from rfl]
    rw [hstatus_mem p hpK, if_neg hnc]

/-- Concrete parameters for the C9 witness: a 4 x 4 unit grid at stride 1
    with no clipping bounds. -/
def c9params : NearestParams :=
  { current_nx := 4, current_ny := 4, current_stride := 1,
    xinc := 1, yinc := 1, r_xinc := 1, r_yinc := 1,
    xlo := 0, xhi := 3, ylo := 0, yhi := 3,
    a0_const_1 := 1, a0_const_2 := 1, r_z_rms := 1,
    plane_sx := 0, plane_sy := 0,
    set_limit_lo := false, set_limit_hi := false,
    bound_lo := fun _ _ => none, bound_hi := fun _ _ => none }

/-- Concrete index-sorted data for the C9 witness. -/
def c9data : List (SurfPoint ℚ) :=
  [{ x := 0, y := 3, z := 30, kind := 1, index := 0 },
   { x := 1, y := 2, z := 10, kind := 0, index := 5 },
   { x := 2, y := 2, z := 20, kind := 0, index := 5 }]

/-- Witness for C9 on the concrete 4 x 4 instance. -/
theorem surface_find_nearest_constraint_Briggs_aligned_witness :
    surface_sweep_quad_nodes (surface_find_nearest_constraint c9params c9data none) 4 4 =
      (surface_quad_assigns (surface_find_nearest_constraint c9params c9data none)).map
        Prod.fst ∧
    surface_Briggs_table (surface_find_nearest_constraint c9params c9data none) =
      (surface_quad_assigns (surface_find_nearest_constraint c9params c9data none)).map
        Prod.snd ∧
    ∀ pr ∈ surface_quad_assigns (surface_find_nearest_constraint c9params c9data none),
      ∃ p ∈ c9data, pr.1 = surface_node_of 4 p.index ∧
        surface_status (surface_find_nearest_constraint c9params c9data none) pr.1 =
          surface_quadrant (surface_constraint_dx c9params p)
            (surface_constraint_dy c9params p) ∧
        pr.2 = surface_solve_Briggs_coefficients 1 1
          (surface_reflect_xx (surface_constraint_dx c9params p)
            (surface_constraint_dy c9params p))
          (surface_reflect_yy (surface_constraint_dx c9params p)
            (surface_constraint_dy c9params p)) p.z :=
  surface_find_nearest_constraint_Briggs_aligned c9params c9data
    (by decide) (by decide) (by decide)

end Surface
